import Mathlib

/-!
Verification development for the `sample-programs-docs` archive: shallow
embeddings of `bubble_sort.py`, `merge_sort_copy.py` and `fraction_math.py`,
with proofs of the specification's testable properties.

Strings are embedded as `List Char`; Python's arbitrary-precision integers
as `Int`; Python's `fractions.Fraction` (exact rationals in lowest terms)
as Lean's `Rat`.
-/

namespace SampleProgs

/-! ## `bubble_sort.py` — the sorting core -/

/-- Embeds the inner `pass_list` of `bubble_sort` (bubble_sort.py lines 6-14).
The Python function compares the first two elements; when `xs[1] < xs[0]` it
executes `del xs[1]` and returns `[x1] + pass_list(xs)` (so the recursive call
sees `x0 :: rest`); otherwise it returns `[x0] + pass_list(xs[1:])`.  Value
semantics of the returned list; the in-place `del` effect is modelled
separately by `passListH` below. -/
def pass_list : List Int → List Int
  | [] => []
  | [x] => [x]
  | x0 :: x1 :: rest =>
    if x1 < x0 then x1 :: pass_list (x0 :: rest)
    else x0 :: pass_list (x1 :: rest)
termination_by l => l.length

/-- Embeds `bubble_sort` (bubble_sort.py line 15):
`reduce(lambda acc, _: pass_list(acc), xs, xs[:])`, i.e. one `pass_list`
application per element of `xs`, starting from a copy of `xs`. -/
def bubble_sort (xs : List Int) : List Int :=
  xs.foldl (fun acc _ => pass_list acc) xs

/-! ## `merge_sort_copy.py` -/

/-- Embeds `merge` (merge_sort_copy.py lines 15-22): empty checks in source
order, then `[xs[0]] + merge(xs[1:], ys)` when `xs[0] < ys[0]`, else
`[ys[0]] + merge(xs, ys[1:])`. -/
def merge : List Int → List Int → List Int
  | [], ys => ys
  | xs, [] => xs
  | x :: xs, y :: ys =>
    if x < y then x :: merge xs (y :: ys)
    else y :: merge (x :: xs) ys
termination_by a b => a.length + b.length

/-- Embeds the inner `sort` of `merge_sort` (merge_sort_copy.py lines 5-10),
which recurses on `[merge(xs[0], xs[1])] + sort(xs[2:])`.  The recursion is
not structural, so a fuel parameter bounds the depth; `sortFuel_eq` below
shows that fuel equal to the list length always suffices, so the embedding
computes exactly what the Python recursion computes. -/
def sortFuel : Nat → List (List Int) → List (List Int)
  | _, [] => []
  | _, [r] => [r]
  | 0, rs => rs
  | fuel + 1, r0 :: r1 :: rest =>
    sortFuel fuel (merge r0 r1 :: sortFuel fuel rest)

/-- Embeds `merge_sort` (merge_sort_copy.py lines 4-12):
`split_xs = [[x] for x in xs]; return sort(split_xs)[0]`.  Indexing `[0]`
into an empty list raises `IndexError` in Python; that failure is modelled
by `Option` via `head?` (so `merge_sort [] = none`). -/
def merge_sort (xs : List Int) : Option (List Int) :=
  let split_xs := xs.map (fun x => [x])
  (sortFuel split_xs.length split_xs).head?

/-- The single run the inner `sort` produces on a non-empty list of runs:
`sort(r0::r1::rest)` merges `r0` with `r1` and then merges the result with
the run produced from `rest`. -/
def mergeAll : List (List Int) → List Int
  | [] => []
  | [r] => r
  | r0 :: r1 :: rest => merge (merge r0 r1) (mergeAll rest)

/-! ## List parsing and rendering (`input_list` and the CLI surface) -/

/-- The decimal digit character for `n < 10`. -/
def digitChar (n : Nat) : Char := Char.ofNat (48 + n)

/-- Base-10 digits of a natural number, most significant first. -/
def natDigits (n : Nat) : List Char :=
  if _h : n < 10 then [digitChar n]
  else natDigits (n / 10) ++ [digitChar (n % 10)]
termination_by n
decreasing_by exact Nat.div_lt_self (by omega) (by omega)

/-- Python's `str`/`repr` of an integer: optional minus sign, then decimal
digits. -/
def renderInt (i : Int) : List Char :=
  if i < 0 then '-' :: natDigits i.natAbs else natDigits i.toNat

/-- Modelled from the spec: the spec's `renderList` (an integer sequence
"rendered as comma-separated text", as in the scenario string
`"5, 4, 3, 2, 1"`) has no implementation in the repository, so it is taken
from the spec's words: decimal renderings joined by a comma and a space. -/
def renderList : List Int → List Char
  | [] => []
  | [x] => renderInt x
  | x :: y :: rest => renderInt x ++ ',' :: ' ' :: renderList (y :: rest)

/-- Python's `print` of a list of integers: `repr` of the elements joined by
`", "` inside square brackets. -/
def renderPyList (L : List Int) : List Char :=
  '[' :: (renderList L ++ [']'])

def isDigitCh (c : Char) : Bool :=
  decide (48 ≤ c.toNat) && decide (c.toNat ≤ 57)

def digitVal (c : Char) : Nat := c.toNat - 48

/-- Python's `str.split(sep)` for a one-character separator: note that the
empty string yields `[[]]` (one empty token), exactly as `"".split(',')`
yields `[""]`. -/
def splitOnChar (sep : Char) : List Char → List (List Char)
  | [] => [[]]
  | c :: rest =>
    let r := splitOnChar sep rest
    if c = sep then [] :: r else (c :: r.headI) :: r.tail

/-- Remove the characters satisfying `p` from both ends. -/
def stripWhile (p : Char → Bool) (cs : List Char) : List Char :=
  ((cs.dropWhile p).reverse.dropWhile p).reverse

/-- Python's `str.strip(" ")`: removes space characters (only) from both
ends. -/
def strip_space (cs : List Char) : List Char := stripWhile (fun c => c = ' ') cs

/-- The ASCII whitespace characters Python's number parsing ignores at both
ends (space, tab, newline, carriage return, vertical tab, form feed). -/
def isPyWhitespace (c : Char) : Bool :=
  c.toNat = 32 || c.toNat = 9 || c.toNat = 10 ||
  c.toNat = 13 || c.toNat = 11 || c.toNat = 12

/-- Helper for `validDigitSeq`: having just read `prev`, checks that every
following character is a digit or an underscore placed between two digits,
and that the sequence ends in a digit. -/
def digitSeqGo : Char → List Char → Bool
  | prev, [] => isDigitCh prev
  | prev, c :: rest =>
    (isDigitCh c || (c = '_' && isDigitCh prev)) && digitSeqGo c rest

/-- A non-empty decimal digit sequence in which single underscores may
separate digits (CPython's digit-run grammar for `int(s, 10)`). -/
def validDigitSeq : List Char → Bool
  | [] => false
  | c :: rest => isDigitCh c && digitSeqGo c rest

/-- The value of a digit sequence (underscores ignored). -/
def digitsVal (cs : List Char) : Nat :=
  (cs.filter isDigitCh).foldl (fun a c => 10 * a + digitVal c) 0

/-- Models CPython's built-in `int(s, 10)` on ASCII input: surrounding
whitespace is ignored, then an optional single `+`/`-` sign precedes a
non-empty digit sequence (`validDigitSeq`).  `none` models `ValueError`. -/
def pyInt (cs : List Char) : Option Int :=
  match stripWhile isPyWhitespace cs with
  | [] => none
  | c :: rest =>
    if c = '+' then
      if validDigitSeq rest then some ((digitsVal rest : Nat) : Int) else none
    else if c = '-' then
      if validDigitSeq rest then some (-((digitsVal rest : Nat) : Int)) else none
    else
      if validDigitSeq (c :: rest) then some ((digitsVal (c :: rest) : Nat) : Int)
      else none

/-- The list comprehension `[int(x.strip(" "), 10) for x in ...]`: parses the
tokens left to right; the first `ValueError` aborts the whole parse. -/
def parseTokens : List (List Char) → Option (List Int)
  | [] => some []
  | t :: ts =>
    match pyInt (strip_space t) with
    | none => none
    | some v =>
      match parseTokens ts with
      | none => none
      | some vs => some (v :: vs)

/-- Embeds `input_list` (bubble_sort.py lines 20-21 and merge_sort_copy.py
lines 25-26, identical code):
`[int(x.strip(" "), 10) for x in list_str.split(',')]`. -/
def input_list (s : List Char) : Option (List Int) :=
  parseTokens (splitOnChar ',' s)

/-- The fixed usage message of `exit_with_error` in both sort scripts. -/
def usage_msg : List Char :=
  String.toList "Usage: please provide a list of at least two integers to sort in the format \"1, 2, 3, 4, 5\""

/-- Embeds `main` of bubble_sort.py (lines 46-52): the printed line and the
process exit code.  A missing argument raises `IndexError` and a bad token
raises `ValueError`, both caught by `except (IndexError, ValueError)` which
prints the usage message and exits 1; a parsed list of length at most one
goes through `exit_with_error` (`SystemExit` is not caught by that
`except`). -/
def bubble_main (args : List (List Char)) : List Char × Nat :=
  match args with
  | [] => (usage_msg, 1)
  | a :: _ =>
    match input_list a with
    | none => (usage_msg, 1)
    | some xs =>
      if xs.length ≤ 1 then (usage_msg, 1)
      else (renderPyList (bubble_sort xs), 0)

/-- Embeds `main` of merge_sort_copy.py (lines 53-59), identical to
`bubble_main` except that it calls `merge_sort`, whose possible
`IndexError` (modelled by `none`) the surrounding `except` would catch. -/
def merge_main (args : List (List Char)) : List Char × Nat :=
  match args with
  | [] => (usage_msg, 1)
  | a :: _ =>
    match input_list a with
    | none => (usage_msg, 1)
    | some xs =>
      if xs.length ≤ 1 then (usage_msg, 1)
      else
        match merge_sort xs with
        | none => (usage_msg, 1)
        | some r => (renderPyList r, 0)

/-! ## `fraction_math.py` -/

/-- The Python exceptions that can escape or be caught in
`fraction_math.main`.  (`KeyError` from the operator dictionary is modelled
by `Option` on the lookup itself.) -/
inductive PyExc where
  | valueError
  | zeroDivisionError
  | nameError
deriving DecidableEq

/-- A value printed by the evaluator: an exact rational or a Python int. -/
inductive PyVal where
  | vfrac (q : Rat)
  | vint (n : Int)
deriving DecidableEq

/-- Signed digit run, the numerator syntax of `Fraction(str)`. -/
def parseSignedDigits (cs : List Char) : Option Int :=
  match cs with
  | [] => none
  | c :: rest =>
    if c = '+' then
      if validDigitSeq rest then some ((digitsVal rest : Nat) : Int) else none
    else if c = '-' then
      if validDigitSeq rest then some (-((digitsVal rest : Nat) : Int)) else none
    else
      if validDigitSeq (c :: rest) then some ((digitsVal (c :: rest) : Nat) : Int)
      else none

/-- Models `fractions.Fraction(str)` on its integer and `num/den` literal
forms (the decimal/exponent forms of the constructor are outside the
spec's "rational literal" syntax and not modelled): surrounding whitespace
is ignored; the numerator may carry a sign, the denominator may not; a zero
denominator raises `ZeroDivisionError`; anything else malformed raises
`ValueError`.  The result is reduced to lowest terms (`mkRat`). -/
def Fraction_ofString (cs : List Char) : Except PyExc Rat :=
  let s := stripWhile isPyWhitespace cs
  match splitOnChar '/' s with
  | [numPart] =>
    match parseSignedDigits numPart with
    | some n => .ok (n : Rat)
    | none => .error .valueError
  | [numPart, denPart] =>
    match parseSignedDigits numPart with
    | none => .error .valueError
    | some n =>
      if validDigitSeq denPart then
        if digitsVal denPart = 0 then .error .zeroDivisionError
        else .ok (mkRat n (digitsVal denPart))
      else .error .valueError
  | _ => .error .valueError

/-- Embeds the operator dictionary `d` (fraction_math.py lines 5-16): maps
an operator token to its binary operation.  Arithmetic entries produce a
`Fraction`; `truediv` raises `ZeroDivisionError` on a zero divisor; the six
comparison entries produce `int(bool)`, i.e. 1 or 0.  `none` models the
`KeyError` of a failed dictionary lookup. -/
def d (k : List Char) : Option (Rat → Rat → Except PyExc PyVal) :=
  if k = String.toList "+" then some (fun a b => .ok (.vfrac (a + b))) else
  if k = String.toList "-" then some (fun a b => .ok (.vfrac (a - b))) else
  if k = String.toList "*" then some (fun a b => .ok (.vfrac (a * b))) else
  if k = String.toList "/" then
    some (fun a b =>
      if b = 0 then .error .zeroDivisionError else .ok (.vfrac (a / b))) else
  if k = String.toList "==" then some (fun a b => .ok (.vint (if a = b then 1 else 0))) else
  if k = String.toList "<" then some (fun a b => .ok (.vint (if a < b then 1 else 0))) else
  if k = String.toList ">" then some (fun a b => .ok (.vint (if b < a then 1 else 0))) else
  if k = String.toList "<=" then some (fun a b => .ok (.vint (if a ≤ b then 1 else 0))) else
  if k = String.toList ">=" then some (fun a b => .ok (.vint (if b ≤ a then 1 else 0))) else
  if k = String.toList "!=" then some (fun a b => .ok (.vint (if a = b then 0 else 1))) else
  none

/-- Python's `str` of a `Fraction`: the numerator alone when the denominator
is 1, otherwise `num/den`. -/
def renderRat (q : Rat) : List Char :=
  if q.den = 1 then renderInt q.num
  else renderInt q.num ++ '/' :: natDigits q.den

def renderVal : PyVal → List Char
  | .vfrac q => renderRat q
  | .vint n => renderInt n

/-- What an invocation of `fraction_math.main` observably does: either the
process ends normally (lines printed to stdout, exit code), or an exception
escapes `main` (lines printed before the crash; the interpreter then exits
with status 1 and a traceback). -/
inductive Outcome where
  | exited (lines : List (List Char)) (code : Nat)
  | uncaught (lines : List (List Char)) (e : PyExc)
deriving DecidableEq

/-- The process exit status an `Outcome` produces: an uncaught exception
makes the interpreter exit 1. -/
def exitCodeOf : Outcome → Nat
  | .exited _ code => code
  | .uncaught _ _ => 1

def frac_usage : List Char :=
  String.toList "Usage: ./fraction-math operand1 operator operand2"

def invalid_operand (s : List Char) : List Char :=
  String.toList "Invalid operand: " ++ s

def invalid_operator (s : List Char) : List Char :=
  String.toList "Invalid operator: " ++ s

/-- One `try: o = Fraction(a) except ValueError: print(...)` block of
`fraction_math.main`: on success the operand is bound; on `ValueError` the
diagnostic is printed and the operand stays unbound (`none`); any other
exception escapes. -/
def tryFraction (lines : List (List Char)) (a : List Char) :
    Outcome ⊕ (List (List Char) × Option Rat) :=
  match Fraction_ofString a with
  | .ok q => .inr (lines, some q)
  | .error .valueError => .inr (lines ++ [invalid_operand a], none)
  | .error e => .inl (.uncaught lines e)

/-- The final `try: print(d[args[1]](o1, o2)) except KeyError` block:
Python first evaluates `d[args[1]]` (a missing key raises `KeyError`,
caught and reported), then the argument expressions `o1` and `o2` (an
unbound one raises `NameError`, not caught), then the call itself (whose
`ZeroDivisionError` is not caught either). -/
def fracApply (lines : List (List Char)) (o1 o2 : Option Rat)
    (a1 : List Char) : Outcome :=
  match d a1 with
  | none => .exited (lines ++ [invalid_operator a1]) 0
  | some f =>
    match o1 with
    | none => .uncaught lines .nameError
    | some q1 =>
      match o2 with
      | none => .uncaught lines .nameError
      | some q2 =>
        match f q1 q2 with
        | .error e => .uncaught lines e
        | .ok v => .exited (lines ++ [renderVal v]) 0

/-- Embeds `main` of fraction_math.py (lines 44-60). -/
def fraction_main (args : List (List Char)) : Outcome :=
  match args with
  | [a0, a1, a2] =>
    match tryFraction [] a0 with
    | .inl out => out
    | .inr (lines1, o1) =>
      match tryFraction lines1 a2 with
      | .inl out => out
      | .inr (lines2, o2) => fracApply lines2 o1 o2 a1
  | _ => .exited [frac_usage] 1

/-! ## Object-level (heap) model of the bubble pass

`pass_list` mutates its argument in place (`del xs[1]`), while
`bubble_sort` hands it `xs[:]`, a copy.  To settle the aliasing claim the
relevant statements are re-embedded over an explicit heap: objects are
numbered slots holding integer lists, `del`/slice/concatenation become slot
updates and fresh allocations at the end of the heap. -/

/-- A heap of list objects; the object id is the index. -/
abbrev Heap := List (List Int)

/-- The contents of object `i`. -/
def lookup (h : Heap) (i : Nat) : List Int := (h[i]?).getD []

/-- Object-level `pass_list`: `del xs[1]` updates slot `i` in place;
`xs[1:]` and `[x] + ys` allocate fresh slots.  The fuel bounds the recursion
depth (the contents shrink by one element per call, so fuel equal to the
length always suffices); base cases return the argument object itself. -/
def passListH (fuel : Nat) (h : Heap) (i : Nat) : Heap × Nat :=
  match fuel, lookup h i with
  | _, [] => (h, i)
  | _, [_] => (h, i)
  | 0, _ => (h, i)
  | fuel' + 1, x0 :: x1 :: rest =>
    if x1 < x0 then
      let h1 := h.set i (x0 :: rest)
      let p := passListH fuel' h1 i
      (p.1 ++ [x1 :: lookup p.1 p.2], p.1.length)
    else
      let h1 := h ++ [x1 :: rest]
      let p := passListH fuel' h1 h.length
      (p.1 ++ [x0 :: lookup p.1 p.2], p.1.length)

/-- The `reduce` loop of `bubble_sort` at object level: `k` passes, each
applied to the object the previous pass returned. -/
def bubblePassesH : Nat → Heap → Nat → Heap × Nat
  | 0, h, a => (h, a)
  | k + 1, h, a =>
    let p := passListH (lookup h a).length h a
    bubblePassesH k p.1 p.2

/-- Object-level `bubble_sort` applied to object `i`: allocates the copy
`xs[:]` and runs one pass per element of the original list. -/
def bubble_sortH (h : Heap) (i : Nat) : Heap × Nat :=
  bubblePassesH (lookup h i).length (h ++ [lookup h i]) h.length

/-- Object-level `merge_sort` applied to object `i`.  The source of
`merge_sort`/`merge` contains no mutating statement (no `del`, no index
assignment): it only reads existing objects, builds fresh lists by slicing
and concatenation, and returns `sort(split_xs)[0]`; the embedding therefore
allocates the returned run as a fresh object and touches nothing else
(`none` again models the `IndexError` on empty input). -/
def merge_sortH (h : Heap) (i : Nat) : Heap × Option Nat :=
  match merge_sort (lookup h i) with
  | none => (h, none)
  | some v => (h ++ [v], some h.length)

/-! ### Basic lemmas about `merge` -/

theorem merge_nil_left (ys : List Int) : merge [] ys = ys := by
  cases ys <;> simp [merge]

theorem merge_nil_right (xs : List Int) : merge xs [] = xs := by
  cases xs <;> simp [merge]

theorem merge_cons_cons (x y : Int) (xs ys : List Int) :
    merge (x :: xs) (y :: ys) =
      if x < y then x :: merge xs (y :: ys) else y :: merge (x :: xs) ys := by
  simp [merge]

/-- `merge` returns a permutation of the concatenation of its inputs. -/
theorem merge_perm (xs ys : List Int) : List.Perm (merge xs ys) (xs ++ ys) := by
  induction xs generalizing ys with
  | nil => simp [merge_nil_left]
  | cons x xs ihx =>
    induction ys with
    | nil => simp [merge_nil_right]
    | cons y ys ihy =>
      rw [merge_cons_cons]
      by_cases h : x < y
      · simpa [h] using (ihx (y :: ys)).cons x
      · simp only [h, if_false]
        refine (ihy.cons y).trans ?_
        simpa using (@List.perm_middle _ y (x :: xs) ys).symm

/-- `merge` of two sorted lists is sorted. -/
theorem merge_sorted {xs ys : List Int}
    (hx : xs.Sorted (· ≤ ·)) (hy : ys.Sorted (· ≤ ·)) :
    (merge xs ys).Sorted (· ≤ ·) := by
  induction xs generalizing ys with
  | nil => simpa [merge_nil_left] using hy
  | cons x xs ihx =>
    induction ys with
    | nil => simpa [merge_nil_right] using hx
    | cons y ys ihy =>
      rw [List.sorted_cons] at hx hy
      rw [merge_cons_cons]
      by_cases h : x < y
      · rw [if_pos h, List.sorted_cons]
        refine ⟨?_, ihx hx.2 (List.sorted_cons.mpr hy)⟩
        intro b hb
        have hb' := (merge_perm xs (y :: ys)).mem_iff.mp hb
        rcases List.mem_append.mp hb' with hbx | hby
        · exact hx.1 b hbx
        · rcases List.mem_cons.mp hby with rfl | hbys
          · exact le_of_lt h
          · exact le_of_lt (lt_of_lt_of_le h (hy.1 b hbys))
      · rw [if_neg h, List.sorted_cons]
        refine ⟨?_, ihy hy.2⟩
        intro b hb
        have hb' := (merge_perm (x :: xs) ys).mem_iff.mp hb
        have hyx : y ≤ x := le_of_not_lt h
        rcases List.mem_append.mp hb' with hbx | hbys
        · rcases List.mem_cons.mp hbx with rfl | hbxs
          · exact hyx
          · exact le_trans hyx (hx.1 b hbxs)
        · exact hy.1 b hbys

/-! ### Fuel adequacy for the inner `sort`, and `mergeAll` correctness -/

theorem sortFuel_nil (fuel : Nat) : sortFuel fuel [] = [] := by
  cases fuel <;> simp [sortFuel]

theorem sortFuel_singleton (fuel : Nat) (r : List Int) :
    sortFuel fuel [r] = [r] := by
  cases fuel <;> simp [sortFuel]

theorem mergeAll_cons_cons (r0 r1 : List Int) (rest : List (List Int)) :
    mergeAll (r0 :: r1 :: rest) = merge (merge r0 r1) (mergeAll rest) := by
  simp [mergeAll]

/-- With fuel at least the length of the run list, the fueled embedding of
the inner `sort` reaches its fixpoint: a single merged run (or nothing, for
no runs at all).  This is the Python recursion's actual behaviour, since each
recursive call strictly shortens the run list. -/
theorem sortFuel_eq (fuel : Nat) (rs : List (List Int)) (h : rs.length ≤ fuel) :
    sortFuel fuel rs = if rs = [] then [] else [mergeAll rs] := by
  induction fuel generalizing rs with
  | zero =>
    have : rs = [] := List.length_eq_zero.mp (Nat.le_zero.mp h)
    subst this
    simp [sortFuel_nil]
  | succ fuel ih =>
    match rs with
    | [] => simp [sortFuel_nil]
    | [r] => simp [sortFuel_singleton, mergeAll]
    | r0 :: r1 :: rest =>
      have hrest : rest.length ≤ fuel := by
        simp only [List.length_cons] at h
        omega
      rw [show sortFuel (fuel + 1) (r0 :: r1 :: rest)
            = sortFuel fuel (merge r0 r1 :: sortFuel fuel rest) from rfl]
      rw [ih rest hrest]
      by_cases hr : rest = []
      · subst hr
        simp [sortFuel_singleton, mergeAll_cons_cons, mergeAll, merge_nil_right]
      · rw [if_neg hr]
        have hlen2 : ([merge r0 r1, mergeAll rest] : List (List Int)).length ≤ fuel := by
          simp only [List.length_cons, List.length_nil] at h ⊢
          have : 1 ≤ rest.length := by
            cases rest with
            | nil => exact absurd rfl hr
            | cons a t => simp
          omega
        rw [ih _ hlen2]
        simp [mergeAll_cons_cons, mergeAll, merge_nil_right]

/-- `merge_sort` on a non-empty list returns the single run obtained by
merging all singleton runs; on the empty list it returns `none`
(the Python `IndexError` from `sort(split_xs)[0]`). -/
theorem merge_sort_eq (xs : List Int) :
    merge_sort xs = if xs = [] then none
                    else some (mergeAll (xs.map (fun x => [x]))) := by
  show (sortFuel (xs.map (fun x => [x])).length (xs.map (fun x => [x]))).head?
      = if xs = [] then none else some (mergeAll (xs.map (fun x => [x])))
  rw [sortFuel_eq _ _ le_rfl]
  cases xs <;> simp

theorem flatten_map_singleton (xs : List Int) :
    (xs.map (fun x => [x])).flatten = xs := by
  induction xs with
  | nil => simp
  | cons a t iht => simp [iht]

theorem mergeAll_perm (rs : List (List Int)) :
    List.Perm (mergeAll rs) rs.flatten := by
  match rs with
  | [] => simp [mergeAll]
  | [r] => simp [mergeAll]
  | r0 :: r1 :: rest =>
    rw [mergeAll_cons_cons]
    refine (merge_perm _ _).trans ?_
    refine ((merge_perm r0 r1).append (mergeAll_perm rest)).trans ?_
    simp [List.append_assoc]

theorem mergeAll_sorted (rs : List (List Int))
    (h : ∀ r ∈ rs, r.Sorted (· ≤ ·)) :
    (mergeAll rs).Sorted (· ≤ ·) := by
  match rs with
  | [] => simp [mergeAll]
  | [r] => simpa [mergeAll] using h r (by simp)
  | r0 :: r1 :: rest =>
    rw [mergeAll_cons_cons]
    refine merge_sorted (merge_sorted ?_ ?_) (mergeAll_sorted rest ?_)
    · exact h r0 (by simp)
    · exact h r1 (by simp)
    · intro r hr
      exact h r (by simp [hr])

/-- The functional contract of `merge_sort` on non-empty input: it returns a
sorted permutation of its argument. -/
theorem merge_sort_spec (xs : List Int) (hxs : xs ≠ []) :
    ∃ r, merge_sort xs = some r ∧ List.Perm r xs ∧ r.Sorted (· ≤ ·) := by
  refine ⟨mergeAll (xs.map (fun x => [x])), ?_, ?_, ?_⟩
  · rw [merge_sort_eq, if_neg hxs]
  · refine (mergeAll_perm _).trans ?_
    rw [flatten_map_singleton]
  · refine mergeAll_sorted _ ?_
    intro r hr
    rcases List.mem_map.mp hr with ⟨x, _, rfl⟩
    simp

/-! ### `pass_list` lemmas and bubble-sort correctness -/

theorem pass_list_nil : pass_list [] = [] := by simp [pass_list]

theorem pass_list_singleton (x : Int) : pass_list [x] = [x] := by
  simp [pass_list]

theorem pass_list_cons_cons (x0 x1 : Int) (rest : List Int) :
    pass_list (x0 :: x1 :: rest) =
      if x1 < x0 then x1 :: pass_list (x0 :: rest)
      else x0 :: pass_list (x1 :: rest) := by
  simp [pass_list]

/-- A bubble pass permutes its input. -/
theorem pass_list_perm (l : List Int) : List.Perm (pass_list l) l := by
  induction l using pass_list.induct with
  | case1 => simp [pass_list_nil]
  | case2 x => simp [pass_list_singleton]
  | case3 x0 x1 rest h ih =>
    rw [pass_list_cons_cons, if_pos h]
    exact (ih.cons x1).trans (List.Perm.swap x0 x1 rest)
  | case4 x0 x1 rest h ih =>
    rw [pass_list_cons_cons, if_neg h]
    exact ih.cons x0

theorem pass_list_length (l : List Int) :
    (pass_list l).length = l.length :=
  (pass_list_perm l).length_eq

/-- One bubble pass over a non-empty list deposits a maximal element at the
end: `pass_list l = l' ++ [M]` where `M :: l'` is a permutation of `l` and
`M` dominates every element of `l'`. -/
theorem pass_list_max_last (x : Int) (l : List Int) :
    ∃ l' M, pass_list (x :: l) = l' ++ [M] ∧
      List.Perm (x :: l) (M :: l') ∧ ∀ y ∈ l', y ≤ M := by
  induction l generalizing x with
  | nil =>
    exact ⟨[], x, by simp [pass_list_singleton], List.Perm.refl _, by simp⟩
  | cons y rest ih =>
    by_cases h : y < x
    · rcases ih x with ⟨l', M, heq, hperm, hdom⟩
      refine ⟨y :: l', M, ?_, ?_, ?_⟩
      · rw [pass_list_cons_cons, if_pos h, heq]
        simp
      · exact ((List.Perm.swap y x rest).trans (hperm.cons y)).trans
          (List.Perm.swap M y l')
      · intro z hz
        rcases List.mem_cons.mp hz with rfl | hz'
        · have hxM : x ≤ M := by
            have hx : x ∈ M :: l' := hperm.mem_iff.mp (by simp)
            rcases List.mem_cons.mp hx with rfl | hx'
            · exact le_refl _
            · exact hdom x hx'
          exact le_of_lt (lt_of_lt_of_le h hxM)
        · exact hdom z hz'
    · rcases ih y with ⟨l', M, heq, hperm, hdom⟩
      refine ⟨x :: l', M, ?_, ?_, ?_⟩
      · rw [pass_list_cons_cons, if_neg h, heq]
        simp
      · exact (hperm.cons x).trans (List.Perm.swap M x l')
      · intro z hz
        rcases List.mem_cons.mp hz with rfl | hz'
        · have hyM : y ≤ M := by
            have hy : y ∈ M :: l' := hperm.mem_iff.mp (by simp)
            rcases List.mem_cons.mp hy with rfl | hy'
            · exact le_refl _
            · exact hdom y hy'
          exact le_trans (le_of_not_lt h) hyM
        · exact hdom z hz'

/-- A bubble pass leaves a trailing maximal element in place. -/
theorem pass_list_append_max (l : List Int) (M : Int)
    (hdom : ∀ y ∈ l, y ≤ M) :
    pass_list (l ++ [M]) = pass_list l ++ [M] := by
  induction l using pass_list.induct with
  | case1 => simp [pass_list_nil, pass_list_singleton]
  | case2 x =>
    have hxM : x ≤ M := hdom x (by simp)
    rw [pass_list_singleton]
    show pass_list [x, M] = [x, M]
    rw [pass_list_cons_cons, if_neg (not_lt.mpr hxM), pass_list_singleton]
  | case3 x0 x1 rest h ih =>
    have hdom' : ∀ y ∈ x0 :: rest, y ≤ M := by
      intro y hy
      rcases List.mem_cons.mp hy with rfl | hy'
      · exact hdom y (by simp)
      · exact hdom y (by simp [hy'])
    show pass_list (x0 :: x1 :: (rest ++ [M])) = _
    rw [pass_list_cons_cons, if_pos h, pass_list_cons_cons, if_pos h]
    rw [show x0 :: (rest ++ [M]) = (x0 :: rest) ++ [M] from rfl, ih hdom']
    simp
  | case4 x0 x1 rest h ih =>
    have hdom' : ∀ y ∈ x1 :: rest, y ≤ M := by
      intro y hy
      rcases List.mem_cons.mp hy with rfl | hy'
      · exact hdom y (by simp)
      · exact hdom y (by simp [hy'])
    show pass_list (x0 :: x1 :: (rest ++ [M])) = _
    rw [pass_list_cons_cons, if_neg h, pass_list_cons_cons, if_neg h]
    rw [show x1 :: (rest ++ [M]) = (x1 :: rest) ++ [M] from rfl, ih hdom']
    simp

/-- Iterated bubble passes leave a trailing maximal element in place. -/
theorem pass_list_iterate_append_max (n : Nat) (l : List Int) (M : Int)
    (hdom : ∀ y ∈ l, y ≤ M) :
    pass_list^[n] (l ++ [M]) = pass_list^[n] l ++ [M] := by
  induction n generalizing l with
  | zero => simp
  | succ n ih =>
    rw [Function.iterate_succ_apply, Function.iterate_succ_apply]
    rw [pass_list_append_max l M hdom]
    exact ih (pass_list l) (fun y hy => hdom y ((pass_list_perm l).mem_iff.mp hy))

/-- Iterated bubble passes permute the input. -/
theorem pass_list_iterate_perm (n : Nat) (l : List Int) :
    List.Perm (pass_list^[n] l) l := by
  induction n with
  | zero => simp
  | succ k ihk =>
    rw [Function.iterate_succ_apply']
    exact (pass_list_perm _).trans ihk

/-- `n` bubble passes sort any list of length at most `n`. -/
theorem pass_list_iterate_sorted (n : Nat) (l : List Int) (h : l.length ≤ n) :
    (pass_list^[n] l).Sorted (· ≤ ·) := by
  induction n generalizing l with
  | zero =>
    have : l = [] := List.length_eq_zero.mp (Nat.le_zero.mp h)
    subst this
    simp
  | succ n ih =>
    match l with
    | [] =>
      rw [Function.iterate_succ_apply, pass_list_nil]
      exact ih [] (by simp)
    | x :: t =>
      rcases pass_list_max_last x t with ⟨l', M, heq, hperm, hdom⟩
      rw [Function.iterate_succ_apply, heq]
      have hlen : l'.length ≤ n := by
        have h1 : (x :: t).length = (M :: l').length := hperm.length_eq
        simp only [List.length_cons] at h h1
        omega
      rw [pass_list_iterate_append_max n l' M hdom]
      have hsorted := ih l' hlen
      have hdom' : ∀ y ∈ pass_list^[n] l', y ≤ M := fun y hy =>
        hdom y ((pass_list_iterate_perm n l').mem_iff.mp hy)
      refine List.pairwise_append.mpr ⟨hsorted, by simp, ?_⟩
      intro a ha b hb
      rw [List.mem_singleton] at hb
      subst hb
      exact hdom' a ha

/-- `reduce` with a function ignoring the running element is pure iteration,
once per element. -/
theorem foldl_const_iterate (f : List Int → List Int) (init : List Int)
    (l : List Int) :
    l.foldl (fun acc _ => f acc) init = f^[l.length] init := by
  induction l generalizing init with
  | nil => simp
  | cons a t iht =>
    simp only [List.foldl_cons, List.length_cons]
    rw [iht (f init), Function.iterate_succ_apply]

theorem bubble_sort_eq_iterate (xs : List Int) :
    bubble_sort xs = pass_list^[xs.length] xs :=
  foldl_const_iterate pass_list xs xs

/-- The functional contract of `bubble_sort`: it returns a sorted permutation
of its argument (unconditionally, empty list included). -/
theorem bubble_sort_spec (xs : List Int) :
    List.Perm (bubble_sort xs) xs ∧ (bubble_sort xs).Sorted (· ≤ ·) := by
  rw [bubble_sort_eq_iterate]
  exact ⟨pass_list_iterate_perm _ _, pass_list_iterate_sorted _ _ le_rfl⟩

/-! ### Rendering and parsing of integers and lists -/

theorem digitChar_toNat {n : Nat} (h : n < 10) : (digitChar n).toNat = 48 + n := by
  interval_cases n <;> decide

theorem isDigitCh_digitChar {n : Nat} (h : n < 10) : isDigitCh (digitChar n) = true := by
  interval_cases n <;> decide

theorem digitVal_digitChar {n : Nat} (h : n < 10) : digitVal (digitChar n) = n := by
  interval_cases n <;> decide

theorem natDigits_ne_nil (n : Nat) : natDigits n ≠ [] := by
  rw [natDigits]
  split <;> simp

theorem natDigits_all_digits (n : Nat) :
    ∀ c ∈ natDigits n, isDigitCh c = true := by
  induction n using natDigits.induct with
  | case1 n h =>
    rw [natDigits, dif_pos h]
    intro c hc
    rw [List.mem_singleton] at hc
    subst hc
    exact isDigitCh_digitChar h
  | case2 n h ih =>
    rw [natDigits, dif_neg h]
    intro c hc
    rcases List.mem_append.mp hc with hc' | hc'
    · exact ih c hc'
    · rw [List.mem_singleton] at hc'
      subst hc'
      exact isDigitCh_digitChar (Nat.mod_lt _ (by omega))

theorem digit_ne_plus {c : Char} (h : isDigitCh c = true) : c ≠ '+' := by
  intro he
  subst he
  exact absurd h (by decide)

theorem digit_ne_minus {c : Char} (h : isDigitCh c = true) : c ≠ '-' := by
  intro he
  subst he
  exact absurd h (by decide)

theorem digit_ne_comma {c : Char} (h : isDigitCh c = true) : c ≠ ',' := by
  intro he
  subst he
  exact absurd h (by decide)

theorem digit_ne_space {c : Char} (h : isDigitCh c = true) : c ≠ ' ' := by
  intro he
  subst he
  exact absurd h (by decide)

theorem digit_not_ws {c : Char} (h : isDigitCh c = true) :
    isPyWhitespace c = false := by
  simp only [isDigitCh, Bool.and_eq_true, decide_eq_true_eq] at h
  simp only [isPyWhitespace, Bool.or_eq_false_iff, decide_eq_false_iff_not]
  omega

theorem digitSeqGo_all_digits (prev : Char) (cs : List Char)
    (hprev : isDigitCh prev = true) (hall : ∀ c ∈ cs, isDigitCh c = true) :
    digitSeqGo prev cs = true := by
  induction cs generalizing prev with
  | nil => simpa [digitSeqGo] using hprev
  | cons c rest ih =>
    have hc : isDigitCh c = true := hall c (by simp)
    simp only [digitSeqGo, hc, Bool.true_or, Bool.true_and]
    exact ih c hc (fun x hx => hall x (by simp [hx]))

theorem validDigitSeq_all_digits (cs : List Char) (hne : cs ≠ [])
    (hall : ∀ c ∈ cs, isDigitCh c = true) : validDigitSeq cs = true := by
  match cs with
  | [] => exact absurd rfl hne
  | c :: rest =>
    have hc : isDigitCh c = true := hall c (by simp)
    simp only [validDigitSeq, hc, Bool.true_and]
    exact digitSeqGo_all_digits c rest hc (fun x hx => hall x (by simp [hx]))

theorem foldl_digits_append (l : List Char) (c : Char) (a : Nat) :
    (l ++ [c]).foldl (fun a c => 10 * a + digitVal c) a =
      10 * (l.foldl (fun a c => 10 * a + digitVal c) a) + digitVal c := by
  rw [List.foldl_append]
  simp

theorem foldl_natDigits (n : Nat) (a : Nat) :
    (natDigits n).foldl (fun a c => 10 * a + digitVal c) a =
      a * 10 ^ (natDigits n).length + n := by
  induction n using natDigits.induct generalizing a with
  | case1 n h =>
    rw [natDigits, dif_pos h]
    simp [digitVal_digitChar h, Nat.mul_comm]
  | case2 n h ih =>
    rw [natDigits, dif_neg h]
    rw [foldl_digits_append, ih a]
    rw [digitVal_digitChar (Nat.mod_lt _ (by omega))]
    rw [List.length_append, List.length_singleton, pow_succ]
    have := Nat.div_add_mod n 10
    ring_nf
    omega

theorem digitsVal_natDigits (n : Nat) : digitsVal (natDigits n) = n := by
  unfold digitsVal
  rw [List.filter_eq_self.mpr]
  · simpa using foldl_natDigits n 0
  · intro c hc
    exact natDigits_all_digits n c hc

/-- Every character of `renderInt x` is a digit or the leading minus sign. -/
theorem renderInt_chars (x : Int) :
    ∀ c ∈ renderInt x, isDigitCh c = true ∨ c = '-' := by
  unfold renderInt
  split
  · intro c hc
    rcases List.mem_cons.mp hc with rfl | hc'
    · exact Or.inr rfl
    · exact Or.inl (natDigits_all_digits _ c hc')
  · intro c hc
    exact Or.inl (natDigits_all_digits _ c hc)

theorem renderInt_ne_nil (x : Int) : renderInt x ≠ [] := by
  unfold renderInt
  split
  · simp
  · exact natDigits_ne_nil _

theorem comma_not_mem_renderInt (x : Int) : ',' ∉ renderInt x := by
  intro hc
  rcases renderInt_chars x ',' hc with h | h
  · exact absurd h (by decide)
  · exact absurd h (by decide)

theorem renderInt_not_ws (x : Int) :
    ∀ c ∈ renderInt x, isPyWhitespace c = false := by
  intro c hc
  rcases renderInt_chars x c hc with h | h
  · exact digit_not_ws h
  · subst h
    decide

theorem renderInt_not_space (x : Int) :
    ∀ c ∈ renderInt x, (c = ' ') = False := by
  intro c hc
  simp only [eq_iff_iff, iff_false]
  intro he
  subst he
  rcases renderInt_chars x ' ' hc with h | h
  · exact absurd h (by decide)
  · exact absurd h (by decide)

theorem dropWhile_eq_self_of_none (p : Char → Bool) (cs : List Char)
    (hall : ∀ c ∈ cs, p c = false) : cs.dropWhile p = cs := by
  cases cs with
  | nil => rfl
  | cons c rest => simp [List.dropWhile_cons, hall c (by simp)]

theorem stripWhile_id (p : Char → Bool) (cs : List Char)
    (hall : ∀ c ∈ cs, p c = false) : stripWhile p cs = cs := by
  unfold stripWhile
  rw [dropWhile_eq_self_of_none p cs hall]
  rw [dropWhile_eq_self_of_none p cs.reverse (fun c hc => hall c (List.mem_reverse.mp hc))]
  exact List.reverse_reverse cs

theorem strip_space_renderInt (x : Int) :
    strip_space (renderInt x) = renderInt x := by
  unfold strip_space
  apply stripWhile_id
  intro c hc
  simpa using renderInt_not_space x c hc

theorem strip_space_cons_space (cs : List Char) :
    strip_space (' ' :: cs) = strip_space cs := by
  simp [strip_space, stripWhile, List.dropWhile_cons]

/-- `pyInt` inverts decimal rendering. -/
theorem pyInt_renderInt (x : Int) : pyInt (renderInt x) = some x := by
  have hid : stripWhile isPyWhitespace (renderInt x) = renderInt x :=
    stripWhile_id _ _ (renderInt_not_ws x)
  by_cases hneg : x < 0
  · have hr : renderInt x = '-' :: natDigits x.natAbs := by
      unfold renderInt
      rw [if_pos hneg]
    rw [hr] at hid ⊢
    unfold pyInt
    rw [hid]
    simp only [reduceCtorEq, reduceIte, Char.reduceEq]
    rw [if_pos (validDigitSeq_all_digits _ (natDigits_ne_nil _) (natDigits_all_digits _))]
    rw [digitsVal_natDigits]
    congr 1
    omega
  · have hr : renderInt x = natDigits x.toNat := by
      unfold renderInt
      rw [if_neg hneg]
    rw [hr] at hid ⊢
    match hnd : natDigits x.toNat with
    | [] => exact absurd hnd (natDigits_ne_nil _)
    | c :: rest =>
      have hc : isDigitCh c = true := by
        apply natDigits_all_digits x.toNat
        rw [hnd]
        simp
      rw [hnd] at hid
      have hv : validDigitSeq (c :: rest) = true := by
        rw [show c :: rest = natDigits x.toNat from hnd.symm]
        exact validDigitSeq_all_digits _ (natDigits_ne_nil _) (natDigits_all_digits _)
      simp only [pyInt, hid, if_neg (digit_ne_plus hc), if_neg (digit_ne_minus hc),
        hv, if_true]
      rw [show c :: rest = natDigits x.toNat from hnd.symm, digitsVal_natDigits]
      congr 1
      omega

/-! ### Splitting and the parse round trip -/

theorem splitOnChar_ne_nil (sep : Char) (cs : List Char) :
    splitOnChar sep cs ≠ [] := by
  cases cs with
  | nil => simp [splitOnChar]
  | cons c rest =>
    simp only [splitOnChar]
    split <;> simp

theorem splitOnChar_no_sep (sep : Char) (cs : List Char) (h : sep ∉ cs) :
    splitOnChar sep cs = [cs] := by
  induction cs with
  | nil => rfl
  | cons c rest ih =>
    have hc : c ≠ sep := fun he => h (by simp [he])
    have hrest : sep ∉ rest := fun hm => h (by simp [hm])
    simp only [splitOnChar, if_neg hc, ih hrest]
    simp

theorem splitOnChar_append (sep : Char) (a r : List Char) (h : sep ∉ a) :
    splitOnChar sep (a ++ sep :: r) = a :: splitOnChar sep r := by
  induction a with
  | nil => simp [splitOnChar]
  | cons c a' ih =>
    have hc : c ≠ sep := fun he => h (by simp [he])
    have ha' : sep ∉ a' := fun hm => h (by simp [hm])
    simp only [List.cons_append, splitOnChar, if_neg hc]
    simp [ih ha']

theorem splitOnChar_cons_ne (sep c : Char) (cs : List Char) (hc : c ≠ sep) :
    splitOnChar sep (c :: cs) =
      (c :: (splitOnChar sep cs).headI) :: (splitOnChar sep cs).tail := by
  simp [splitOnChar, if_neg hc]

theorem parseTokens_cons (t : List Char) (ts : List (List Char)) :
    parseTokens (t :: ts) =
      match pyInt (strip_space t) with
      | none => none
      | some v =>
        match parseTokens ts with
        | none => none
        | some vs => some (v :: vs) := rfl

/-- A token list parses to `none` exactly when some token fails `int`. -/
theorem parseTokens_none_iff (ts : List (List Char)) :
    parseTokens ts = none ↔ ∃ t ∈ ts, pyInt (strip_space t) = none := by
  induction ts with
  | nil => simp [parseTokens]
  | cons t ts ih =>
    rw [parseTokens_cons]
    match hp : pyInt (strip_space t) with
    | none => simp [hp]
    | some v =>
      match hts : parseTokens ts with
      | none =>
        simp only [reduceCtorEq, true_iff]
        rcases ih.mp hts with ⟨t', ht', hpt'⟩
        exact ⟨t', by simp [ht'], hpt'⟩
      | some vs =>
        simp only [reduceCtorEq, false_iff, not_exists]
        intro t' hpair
        rcases hpair with ⟨ht', hnone⟩
        rcases List.mem_cons.mp ht' with rfl | hm
        · rw [hp] at hnone
          exact absurd hnone (by simp)
        · exact absurd (ih.mpr ⟨t', hm, hnone⟩) (by simp [hts])

/-- The comma-space rendering splits back into its tokens: the first token
bare, each later token with the leading space the separator `", "` left
behind. -/
theorem input_list_renderList_aux (L : List Int) (h : L ≠ []) :
    parseTokens (splitOnChar ',' (renderList L)) = some L := by
  induction L with
  | nil => exact absurd rfl h
  | cons x L' ih =>
    match L' with
    | [] =>
      rw [show renderList [x] = renderInt x from rfl]
      rw [splitOnChar_no_sep ',' _ (comma_not_mem_renderInt x)]
      rw [parseTokens_cons]
      simp [strip_space_renderInt, pyInt_renderInt, parseTokens]
    | y :: rest =>
      rw [show renderList (x :: y :: rest)
            = renderInt x ++ ',' :: ' ' :: renderList (y :: rest) from rfl]
      rw [splitOnChar_append ',' _ _ (comma_not_mem_renderInt x)]
      rw [splitOnChar_cons_ne ',' ' ' _ (by decide)]
      have ihs := ih (by simp)
      match hS : splitOnChar ',' (renderList (y :: rest)) with
      | [] => exact absurd hS (splitOnChar_ne_nil _ _)
      | s0 :: S' =>
        rw [hS] at ihs
        rw [parseTokens_cons] at ihs
        match hp0 : pyInt (strip_space s0) with
        | none => rw [hp0] at ihs; exact absurd ihs (by simp)
        | some v =>
          rw [hp0] at ihs
          match hPS : parseTokens S' with
          | none => rw [hPS] at ihs; exact absurd ihs (by simp)
          | some vs =>
            rw [hPS] at ihs
            have hv : v = y ∧ vs = rest := by
              have := Option.some.inj ihs
              exact ⟨(List.cons.inj this).1, (List.cons.inj this).2⟩
            simp only [List.headI, List.tail]
            rw [parseTokens_cons]
            rw [strip_space_renderInt, pyInt_renderInt]
            rw [parseTokens_cons, strip_space_cons_space, hp0, hPS]
            rw [hv.1, hv.2]

/-- Round trip for non-empty sequences. -/
theorem input_list_renderList (L : List Int) (h : L ≠ []) :
    input_list (renderList L) = some L :=
  input_list_renderList_aux L h

/-! ### Heap-model lemmas -/

theorem lookup_append_left (h h' : Heap) (j : Nat) (hj : j < h.length) :
    lookup (h ++ h') j = lookup h j := by
  unfold lookup
  rw [List.getElem?_append_left hj]

theorem lookup_append_self (h : Heap) (v : List Int) :
    lookup (h ++ [v]) h.length = v := by
  unfold lookup
  rw [List.getElem?_append_right le_rfl]
  simp

theorem lookup_set_ne (h : Heap) (i j : Nat) (v : List Int) (hne : i ≠ j) :
    lookup (h.set i v) j = lookup h j := by
  unfold lookup
  rw [List.getElem?_set_ne hne]

theorem passListH_fuel_zero (h : Heap) (i : Nat) : passListH 0 h i = (h, i) := by
  unfold passListH
  rcases lookup h i with _ | ⟨x, _ | ⟨y, t⟩⟩ <;> rfl

theorem passListH_nil (fuel : Nat) (h : Heap) (i : Nat)
    (hc : lookup h i = []) : passListH fuel h i = (h, i) := by
  unfold passListH
  rw [hc]
  cases fuel <;> rfl

theorem passListH_one (fuel : Nat) (h : Heap) (i : Nat) (x : Int)
    (hc : lookup h i = [x]) : passListH fuel h i = (h, i) := by
  unfold passListH
  rw [hc]
  cases fuel <;> rfl

theorem passListH_cons (fuel : Nat) (h : Heap) (i : Nat) (x0 x1 : Int)
    (rest : List Int) (hc : lookup h i = x0 :: x1 :: rest) :
    passListH (fuel + 1) h i =
      if x1 < x0 then
        ((passListH fuel (h.set i (x0 :: rest)) i).1 ++
          [x1 :: lookup (passListH fuel (h.set i (x0 :: rest)) i).1
                  (passListH fuel (h.set i (x0 :: rest)) i).2],
         (passListH fuel (h.set i (x0 :: rest)) i).1.length)
      else
        ((passListH fuel (h ++ [x1 :: rest]) h.length).1 ++
          [x0 :: lookup (passListH fuel (h ++ [x1 :: rest]) h.length).1
                  (passListH fuel (h ++ [x1 :: rest]) h.length).2],
         (passListH fuel (h ++ [x1 :: rest]) h.length).1.length) := by
  rw [passListH.eq_def, hc]

/-- The combined invariant of the object-level bubble pass on object `i`:
the heap only grows, the returned id is valid and is never object 0 when
`i` is not, every object other than `i` keeps its contents, and — when the
fuel covers the contents' length — the returned object holds exactly
`pass_list` of the original contents. -/
theorem passListH_spec (fuel : Nat) (h : Heap) (i : Nat) (hi : i < h.length)
    (hi0 : i ≠ 0) :
    h.length ≤ (passListH fuel h i).1.length ∧
    (passListH fuel h i).2 < (passListH fuel h i).1.length ∧
    (passListH fuel h i).2 ≠ 0 ∧
    (∀ j, j < h.length → j ≠ i → lookup (passListH fuel h i).1 j = lookup h j) ∧
    ((lookup h i).length ≤ fuel →
      lookup (passListH fuel h i).1 (passListH fuel h i).2 = pass_list (lookup h i)) := by
  induction fuel generalizing h i with
  | zero =>
    rw [passListH_fuel_zero]
    refine ⟨le_rfl, hi, hi0, fun j _ _ => rfl, fun hlen => ?_⟩
    have : lookup h i = [] := List.length_eq_zero.mp (Nat.le_zero.mp hlen)
    rw [this, pass_list_nil]
  | succ fuel ih =>
    match hc : lookup h i with
    | [] =>
      rw [passListH_nil _ _ _ hc]
      exact ⟨le_rfl, hi, hi0, fun j _ _ => rfl, fun _ => by rw [hc, pass_list_nil]⟩
    | [x] =>
      rw [passListH_one _ _ _ x hc]
      exact ⟨le_rfl, hi, hi0, fun j _ _ => rfl, fun _ => by rw [hc, pass_list_singleton]⟩
    | x0 :: x1 :: rest =>
      rw [passListH_cons _ _ _ _ _ _ hc]
      by_cases hlt : x1 < x0
      · rw [if_pos hlt]
        have hset : lookup (h.set i (x0 :: rest)) i = x0 :: rest := by
          unfold lookup
          simp [List.getElem?_set_self hi]
        have hilen : i < (h.set i (x0 :: rest)).length := by
          rw [List.length_set]; exact hi
        rcases ih (h.set i (x0 :: rest)) i hilen hi0 with
          ⟨hgrow, hvalid, _, hframe, hcorr⟩
        rw [List.length_set] at hgrow
        refine ⟨?_, ?_, ?_, ?_, ?_⟩
        · rw [List.length_append, List.length_singleton]
          omega
        · rw [List.length_append, List.length_singleton]
          omega
        · omega
        · intro j hj hji
          rw [lookup_append_left _ _ j (by omega)]
          rw [hframe j (by rw [List.length_set]; exact hj) hji]
          exact lookup_set_ne h i j _ (fun e => hji e.symm)
        · intro hlen
          rw [lookup_append_self]
          rw [pass_list_cons_cons, if_pos hlt]
          rw [hcorr (by rw [hset]; simp at hlen ⊢; omega), hset]
      · rw [if_neg hlt]
        have happ : lookup (h ++ [x1 :: rest]) h.length = x1 :: rest :=
          lookup_append_self h _
        have hlenapp : h.length < (h ++ [x1 :: rest]).length := by
          rw [List.length_append, List.length_singleton]
          omega
        have hlen0 : h.length ≠ 0 := by omega
        rcases ih (h ++ [x1 :: rest]) h.length hlenapp hlen0 with
          ⟨hgrow, hvalid, _, hframe, hcorr⟩
        rw [List.length_append, List.length_singleton] at hgrow
        refine ⟨?_, ?_, ?_, ?_, ?_⟩
        · rw [List.length_append, List.length_singleton]
          omega
        · rw [List.length_append, List.length_singleton]
          omega
        · omega
        · intro j hj hji
          rw [lookup_append_left _ _ j (by omega)]
          rw [hframe j (by rw [List.length_append, List.length_singleton]; omega)
            (by omega)]
          exact lookup_append_left h [x1 :: rest] j hj
        · intro hlen
          rw [lookup_append_self]
          rw [pass_list_cons_cons, if_neg hlt]
          rw [hcorr (by rw [happ]; simp at hlen ⊢; omega), happ]

/-- The invariant of the `reduce` loop at object level: object 0 (and any
object other than the working chain) is untouched, the returned id is never
object 0, and the returned object holds `k` bubble passes of the working
object's contents. -/
theorem bubblePassesH_spec (k : Nat) (h : Heap) (a : Nat) (ha : a < h.length)
    (ha0 : a ≠ 0) :
    h.length ≤ (bubblePassesH k h a).1.length ∧
    (bubblePassesH k h a).2 < (bubblePassesH k h a).1.length ∧
    (bubblePassesH k h a).2 ≠ 0 ∧
    lookup (bubblePassesH k h a).1 0 = lookup h 0 ∧
    lookup (bubblePassesH k h a).1 (bubblePassesH k h a).2 =
      pass_list^[k] (lookup h a) := by
  induction k generalizing h a with
  | zero => exact ⟨le_rfl, ha, ha0, rfl, rfl⟩
  | succ k ih =>
    rcases passListH_spec (lookup h a).length h a ha ha0 with
      ⟨hgrow, hvalid, hnz, hframe, hcorr⟩
    have hcorr' := hcorr le_rfl
    have hstep : bubblePassesH (k + 1) h a =
        bubblePassesH k (passListH (lookup h a).length h a).1
          (passListH (lookup h a).length h a).2 := rfl
    rw [hstep]
    rcases ih (passListH (lookup h a).length h a).1
        (passListH (lookup h a).length h a).2 hvalid hnz with
      ⟨hgrow', hvalid', hnz', hzero', hcorr''⟩
    refine ⟨le_trans hgrow hgrow', hvalid', hnz', ?_, ?_⟩
    · rw [hzero']
      exact hframe 0 (by omega) (fun e => ha0 e.symm)
    · rw [hcorr'', hcorr', ← Function.iterate_succ_apply]

/-- The two sort algorithms agree on every non-empty list: a sorted
permutation of a list is unique. -/
theorem merge_sort_eq_bubble_sort (L : List Int) (hne : L ≠ []) :
    merge_sort L = some (bubble_sort L) := by
  rcases bubble_sort_spec L with ⟨hbp, hbs⟩
  rcases merge_sort_spec L hne with ⟨M, hM, hMp, hMs⟩
  rw [hM]
  congr 1
  exact List.eq_of_perm_of_sorted (hMp.trans hbp.symm) hMs hbs

/-! ## The claims -/

/-- C1: for every valid integer list L (the CLI entry points accept lists of
at least two elements), both `bubble_sort L` and `merge_sort L` return a
permutation of L whose consecutive elements are in non-decreasing order; in
particular the input `[5, 4, 3, 2, 1]` yields `[1, 2, 3, 4, 5]`. -/
theorem c1_sorts_correctly (L : List Int) (h : 2 ≤ L.length) :
    (List.Perm (bubble_sort L) L ∧ List.Chain' (· ≤ ·) (bubble_sort L)) ∧
    (∃ M, merge_sort L = some M ∧ List.Perm M L ∧ List.Chain' (· ≤ ·) M) ∧
    bubble_sort [5, 4, 3, 2, 1] = [1, 2, 3, 4, 5] ∧
    merge_sort [5, 4, 3, 2, 1] = some [1, 2, 3, 4, 5] := by
  have hne : L ≠ [] := by
    intro e
    subst e
    simp at h
  rcases bubble_sort_spec L with ⟨hbp, hbs⟩
  rcases merge_sort_spec L hne with ⟨M, hM, hMp, hMs⟩
  refine ⟨⟨hbp, ?_⟩, ⟨M, hM, hMp, ?_⟩, ?_, ?_⟩
  · exact List.chain'_iff_pairwise.mpr hbs
  · exact List.chain'_iff_pairwise.mpr hMs
  · simp [bubble_sort, pass_list_cons_cons, pass_list_singleton, pass_list_nil]
  · simp [merge_sort, sortFuel, merge_cons_cons, merge_nil_left, merge_nil_right]

/-- Witness for C1 at the spec's scenario input. -/
theorem c1_witness :
    2 ≤ ([5, 4, 3, 2, 1] : List Int).length ∧
    (List.Perm (bubble_sort [5, 4, 3, 2, 1]) [5, 4, 3, 2, 1] ∧
      List.Chain' (· ≤ ·) (bubble_sort [5, 4, 3, 2, 1])) ∧
    merge_sort [5, 4, 3, 2, 1] = some [1, 2, 3, 4, 5] :=
  ⟨by simp, (c1_sorts_correctly [5, 4, 3, 2, 1] (by simp)).1,
    (c1_sorts_correctly [5, 4, 3, 2, 1] (by simp)).2.2.2⟩

/-- C2: on every valid integer list (at least two elements), the two sort
implementations produce identical output: `merge_sort` succeeds and returns
exactly `bubble_sort`'s result. -/
theorem c2_bubble_merge_agree (L : List Int) (h : 2 ≤ L.length) :
    merge_sort L = some (bubble_sort L) := by
  apply merge_sort_eq_bubble_sort
  intro e
  subst e
  simp at h

/-- Witness for C2 at the scenario input. -/
theorem c2_witness :
    2 ≤ ([5, 4, 3, 2, 1] : List Int).length ∧
    merge_sort [5, 4, 3, 2, 1] = some (bubble_sort [5, 4, 3, 2, 1]) :=
  ⟨by simp, c2_bubble_merge_agree [5, 4, 3, 2, 1] (by simp)⟩

/-- C3 counterexample: the claim asserts that sorting the empty sequence
returns the empty sequence for both algorithms, but `merge_sort []` raises
`IndexError` (`sort(split_xs)[0]` indexes into an empty list), modelled by
`none`: it does not return the empty sequence. -/
theorem c3_counterexample :
    merge_sort ([] : List Int) = none ∧
    merge_sort ([] : List Int) ≠ some [] := by
  constructor
  · rfl
  · intro he
    rw [show merge_sort ([] : List Int) = none from rfl] at he
    exact Option.noConfusion he

/-- C3 amended: `bubble_sort` handles all three edge cases (empty unchanged,
singleton unchanged, duplicates preserved with multiplicity), and
`merge_sort` handles the singleton and duplicate cases — but on the empty
sequence `merge_sort` raises `IndexError` instead of returning it
(see the counterexample). -/
theorem c3_edge_cases :
    bubble_sort ([] : List Int) = [] ∧
    (∀ x : Int, bubble_sort [x] = [x]) ∧
    (∀ x : Int, merge_sort [x] = some [x]) ∧
    (∀ (L : List Int) (a : Int), (bubble_sort L).count a = L.count a) ∧
    (∀ (L M : List Int), merge_sort L = some M →
      ∀ a : Int, M.count a = L.count a) := by
  refine ⟨rfl, ?_, ?_, ?_, ?_⟩
  · intro x
    simp [bubble_sort, pass_list_singleton]
  · intro x
    rw [merge_sort_eq]
    simp [mergeAll]
  · intro L a
    exact ((bubble_sort_spec L).1).count_eq a
  · intro L M hM a
    have hne : L ≠ [] := by
      intro e
      subst e
      rw [merge_sort_eq] at hM
      simp at hM
    rcases merge_sort_spec L hne with ⟨M', hM', hp, _⟩
    rw [hM] at hM'
    cases Option.some.inj hM'
    exact hp.count_eq a

/-- Witness for C3's amended claim on a duplicate-bearing input. -/
theorem c3_witness :
    merge_sort [2, 1, 2] = some [1, 2, 2] ∧
    ([1, 2, 2] : List Int).count 2 = ([2, 1, 2] : List Int).count 2 := by
  have hm : merge_sort [2, 1, 2] = some [1, 2, 2] := by
    simp [merge_sort, sortFuel, merge_cons_cons, merge_nil_left, merge_nil_right]
  exact ⟨hm, c3_edge_cases.2.2.2.2 [2, 1, 2] [1, 2, 2] hm 2⟩

/-- C8: both sorts are idempotent on valid lists: `bubble_sort` applied to
its own output returns it unchanged, and `merge_sort` applied to its own
output returns that output again. -/
theorem c8_idempotent (L : List Int) (h : 2 ≤ L.length) :
    bubble_sort (bubble_sort L) = bubble_sort L ∧
    (∀ M, merge_sort L = some M → merge_sort M = some M) := by
  constructor
  · rcases bubble_sort_spec (bubble_sort L) with ⟨hp, hs⟩
    exact List.eq_of_perm_of_sorted hp hs (bubble_sort_spec L).2
  · intro M hM
    have hne : L ≠ [] := by
      intro e
      subst e
      simp at h
    rcases merge_sort_spec L hne with ⟨M', hM', hp, hs⟩
    rw [hM] at hM'
    cases Option.some.inj hM'
    have hMne : M ≠ [] := by
      intro e
      subst e
      have hlen := hp.length_eq
      simp at hlen
      omega
    rcases merge_sort_spec M hMne with ⟨M'', hM'', hp2, hs2⟩
    rw [hM'']
    congr 1
    exact List.eq_of_perm_of_sorted hp2 hs2 hs

/-- Witness for C8 at a concrete input. -/
theorem c8_witness :
    bubble_sort (bubble_sort [3, 1, 2]) = bubble_sort [3, 1, 2] ∧
    merge_sort [1, 2, 3] = some [1, 2, 3] := by
  have hm : merge_sort [3, 1, 2] = some [1, 2, 3] := by
    simp [merge_sort, sortFuel, merge_cons_cons, merge_nil_left, merge_nil_right]
  exact ⟨(c8_idempotent [3, 1, 2] (by simp)).1,
    (c8_idempotent [3, 1, 2] (by simp)).2 [1, 2, 3] hm⟩

/-- C6: for both sort CLIs, a missing argument, a token that is no valid
base-10 integer literal (which is exactly when `input_list` fails), or a
parsed list with fewer than two elements prints the fixed usage message and
exits 1; otherwise the sorted sequence is printed and the exit status
is 0. -/
theorem c6_cli_contract (args : List (List Char)) :
    (args = [] →
      bubble_main args = (usage_msg, 1) ∧ merge_main args = (usage_msg, 1)) ∧
    (∀ a rest, args = a :: rest →
      (input_list a = none ↔
        ∃ t ∈ splitOnChar ',' a, pyInt (strip_space t) = none) ∧
      (input_list a = none →
        bubble_main args = (usage_msg, 1) ∧ merge_main args = (usage_msg, 1)) ∧
      (∀ xs, input_list a = some xs → xs.length ≤ 1 →
        bubble_main args = (usage_msg, 1) ∧ merge_main args = (usage_msg, 1)) ∧
      (∀ xs, input_list a = some xs → 2 ≤ xs.length →
        ∃ r, List.Perm r xs ∧ r.Sorted (· ≤ ·) ∧
          bubble_main args = (renderPyList r, 0) ∧
          merge_main args = (renderPyList r, 0))) := by
  constructor
  · intro he
    subst he
    exact ⟨rfl, rfl⟩
  · intro a rest he
    subst he
    refine ⟨parseTokens_none_iff _, ?_, ?_, ?_⟩
    · intro hnone
      constructor
      · simp [bubble_main, hnone]
      · simp [merge_main, hnone]
    · intro xs hxs hle
      constructor
      · simp [bubble_main, hxs, hle]
      · simp [merge_main, hxs, hle]
    · intro xs hxs hge
      have hne : xs ≠ [] := by
        intro e
        subst e
        simp at hge
      refine ⟨bubble_sort xs, (bubble_sort_spec xs).1, (bubble_sort_spec xs).2, ?_, ?_⟩
      · simp only [bubble_main, hxs]
        rw [if_neg (by omega)]
      · simp only [merge_main, hxs]
        rw [if_neg (by omega), merge_sort_eq_bubble_sort xs hne]

/-- Witness for C6 at the spec's scenario string. -/
theorem c6_witness :
    ∃ r, List.Perm r [5, 4, 3, 2, 1] ∧ r.Sorted (· ≤ ·) ∧
      bubble_main [String.toList "5, 4, 3, 2, 1"] = (renderPyList r, 0) ∧
      merge_main [String.toList "5, 4, 3, 2, 1"] = (renderPyList r, 0) :=
  ((c6_cli_contract [String.toList "5, 4, 3, 2, 1"]).2 _ [] rfl).2.2.2
    [5, 4, 3, 2, 1] (by decide) (by simp)

/-- C7 counterexample: the claimed round trip fails for the empty sequence:
its rendering is the empty string, Python's `"".split(',')` yields one empty
token, and `int("")` raises `ValueError`, so `input_list` fails instead of
returning the empty sequence. -/
theorem c7_counterexample :
    renderList ([] : List Int) = [] ∧
    input_list (renderList ([] : List Int)) = none ∧
    input_list (renderList ([] : List Int)) ≠ some [] := by
  refine ⟨rfl, by decide, by decide⟩

/-- C7 amended: parsing inverts rendering for every NON-empty integer
sequence; the empty sequence is the single exception (see the
counterexample). -/
theorem c7_round_trip (L : List Int) (h : L ≠ []) :
    input_list (renderList L) = some L :=
  input_list_renderList L h

/-- Witness for C7 on a sequence with a negative member. -/
theorem c7_witness :
    ([5, -3, 0] : List Int) ≠ [] ∧
    input_list (renderList [5, -3, 0]) = some [5, -3, 0] :=
  ⟨by simp, c7_round_trip [5, -3, 0] (by simp)⟩

/-- C4 counterexample: dividing by the zero rational does raise
`ZeroDivisionError`, but `main` does not catch it: the only handlers are
`except ValueError` around the operand parses and `except KeyError` around
the operator lookup, so the error propagates out of `main` with nothing
printed (the claim asserts it is caught and translated into a message). -/
theorem c4_counterexample :
    fraction_main [String.toList "1", String.toList "/", String.toList "0"]
      = .uncaught [] .zeroDivisionError ∧
    exitCodeOf
      (fraction_main [String.toList "1", String.toList "/", String.toList "0"])
      = 1 := by
  constructor <;> decide

/-- C4 amended: evaluating `/` with a zero right operand fails with
`ZeroDivisionError`, and that error is NOT handled at the entry point: it
propagates uncaught out of `main` (for any parsed operands) rather than
being translated into a message on standard output. -/
theorem c4_div_zero_uncaught (a0 a2 : List Char) (q1 : Rat)
    (h0 : Fraction_ofString a0 = .ok q1)
    (h2 : Fraction_ofString a2 = .ok 0) :
    fraction_main [a0, String.toList "/", a2]
      = .uncaught [] .zeroDivisionError := by
  simp only [fraction_main, tryFraction, h0, h2]
  simp [fracApply, d]

/-- Witness for C4 at the operands `1` and `0`. -/
theorem c4_witness :
    Fraction_ofString (String.toList "1") = .ok 1 ∧
    Fraction_ofString (String.toList "0") = .ok 0 ∧
    fraction_main [String.toList "1", String.toList "/", String.toList "0"]
      = .uncaught [] .zeroDivisionError :=
  ⟨rfl, rfl, c4_div_zero_uncaught (String.toList "1") (String.toList "0") 1 rfl rfl⟩

/-- C5 counterexample: on the invalid operand `x` with the valid operator
`+`, the evaluator prints the diagnostic but then terminates abnormally:
the operand variable `o1` was never assigned, so `d[args[1]](o1, o2)`
raises an uncaught `NameError`, and the process exits with status 1 —
contradicting the claim that no such invocation terminates with a non-zero
status. -/
theorem c5_counterexample :
    fraction_main [String.toList "x", String.toList "+", String.toList "1"]
      = .uncaught [invalid_operand (String.toList "x")] .nameError ∧
    exitCodeOf
      (fraction_main [String.toList "x", String.toList "+", String.toList "1"])
      = 1 := by
  constructor <;> decide

/-- C5 amended: every invalid operand and unknown operator is reported by a
diagnostic naming the token, but the exit behaviour differs by case: an
unknown operator (the lookup fails before the operands are used) prints its
diagnostic and exits 0, as does the case where operands and operator are
all invalid; an invalid operand combined with a KNOWN operator prints the
diagnostic and then crashes with an uncaught `NameError` (exit status 1)
because the operand variable was never bound. -/
theorem c5_invalid_token_behaviour :
    (∀ a0 a1 a2 (q1 q2 : Rat), Fraction_ofString a0 = .ok q1 →
      Fraction_ofString a2 = .ok q2 → d a1 = none →
      fraction_main [a0, a1, a2] = .exited [invalid_operator a1] 0) ∧
    (∀ a0 a1 a2 (q2 : Rat) f, Fraction_ofString a0 = .error .valueError →
      Fraction_ofString a2 = .ok q2 → d a1 = some f →
      fraction_main [a0, a1, a2] = .uncaught [invalid_operand a0] .nameError) ∧
    (∀ a0 a1 a2 (q1 : Rat) f, Fraction_ofString a0 = .ok q1 →
      Fraction_ofString a2 = .error .valueError → d a1 = some f →
      fraction_main [a0, a1, a2] = .uncaught [invalid_operand a2] .nameError) ∧
    (∀ a0 a1 a2, Fraction_ofString a0 = .error .valueError →
      Fraction_ofString a2 = .error .valueError → d a1 = none →
      fraction_main [a0, a1, a2]
        = .exited [invalid_operand a0, invalid_operand a2, invalid_operator a1] 0) := by
  refine ⟨?_, ?_, ?_, ?_⟩
  · intro a0 a1 a2 q1 q2 h0 h2 hop
    simp [fraction_main, tryFraction, h0, h2, fracApply, hop]
  · intro a0 a1 a2 q2 f h0 h2 hop
    simp [fraction_main, tryFraction, h0, h2, fracApply, hop]
  · intro a0 a1 a2 q1 f h0 h2 hop
    simp [fraction_main, tryFraction, h0, h2, fracApply, hop]
  · intro a0 a1 a2 h0 h2 hop
    simp [fraction_main, tryFraction, h0, h2, fracApply, hop]

/-- Witness for C5: an unknown operator exits 0 with a diagnostic; an
invalid first operand with a known operator crashes after its diagnostic. -/
theorem c5_witness :
    fraction_main [String.toList "1", String.toList "%", String.toList "2"]
      = .exited [invalid_operator (String.toList "%")] 0 ∧
    fraction_main [String.toList "y", String.toList "*", String.toList "2"]
      = .uncaught [invalid_operand (String.toList "y")] .nameError :=
  ⟨c5_invalid_token_behaviour.1 (String.toList "1") (String.toList "%")
      (String.toList "2") 1 2 rfl rfl rfl,
    c5_invalid_token_behaviour.2.1 (String.toList "y") (String.toList "*")
      (String.toList "2") 2 _ rfl rfl rfl⟩

/-- C9: each comparison entry of the operator dictionary returns the integer
1 when the exact rational relation holds and 0 otherwise, and for all
rationals a, b exactly one of `a<b`, `a==b`, `a>b` evaluates to 1. -/
theorem c9_comparison_totality (a b : Rat) :
    (d (String.toList "<")).map (fun f => f a b)
      = some (.ok (.vint (if a < b then 1 else 0))) ∧
    (d (String.toList ">")).map (fun f => f a b)
      = some (.ok (.vint (if b < a then 1 else 0))) ∧
    (d (String.toList "<=")).map (fun f => f a b)
      = some (.ok (.vint (if a ≤ b then 1 else 0))) ∧
    (d (String.toList ">=")).map (fun f => f a b)
      = some (.ok (.vint (if b ≤ a then 1 else 0))) ∧
    (d (String.toList "==")).map (fun f => f a b)
      = some (.ok (.vint (if a = b then 1 else 0))) ∧
    (d (String.toList "!=")).map (fun f => f a b)
      = some (.ok (.vint (if a = b then 0 else 1))) ∧
    (((if a < b then (1 : Int) else 0) = 1 ∧ (if a = b then (1 : Int) else 0) = 0 ∧
        (if b < a then (1 : Int) else 0) = 0) ∨
     ((if a < b then (1 : Int) else 0) = 0 ∧ (if a = b then (1 : Int) else 0) = 1 ∧
        (if b < a then (1 : Int) else 0) = 0) ∨
     ((if a < b then (1 : Int) else 0) = 0 ∧ (if a = b then (1 : Int) else 0) = 0 ∧
        (if b < a then (1 : Int) else 0) = 1)) := by
  refine ⟨rfl, rfl, rfl, rfl, rfl, rfl, ?_⟩
  rcases lt_trichotomy a b with h | h | h
  · exact Or.inl ⟨if_pos h, by rw [if_neg (ne_of_lt h)], by rw [if_neg (asymm h)]⟩
  · subst h
    exact Or.inr (Or.inl ⟨by rw [if_neg (lt_irrefl a)], if_pos rfl,
      by rw [if_neg (lt_irrefl a)]⟩)
  · exact Or.inr (Or.inr ⟨by rw [if_neg (asymm h)], by rw [if_neg (ne_of_gt h)],
      if_pos h⟩)

/-- C10: at object level, `bubble_sort` and `merge_sort` leave the argument
object L with exactly its original elements in their original order and
return a different, newly built object holding the sorted result — even
though a bubble pass really does delete elements from its working list (the
final conjunct exhibits the mutation `del xs[1]` on a working copy). -/
theorem c10_no_mutation_no_alias (L : List Int) :
    (lookup (bubble_sortH [L] 0).1 0 = L ∧
     (bubble_sortH [L] 0).2 ≠ 0 ∧
     lookup (bubble_sortH [L] 0).1 (bubble_sortH [L] 0).2 = bubble_sort L) ∧
    (lookup (merge_sortH [L] 0).1 0 = L ∧
     (∀ j, (merge_sortH [L] 0).2 = some j →
        j ≠ 0 ∧ some (lookup (merge_sortH [L] 0).1 j) = merge_sort L)) ∧
    lookup (passListH 2 [[2, 1], [2, 1]] 1).1 1 = [2] := by
  refine ⟨?_, ?_, by decide⟩
  · have hsh : bubble_sortH [L] 0 = bubblePassesH L.length [L, L] 1 := rfl
    rcases bubblePassesH_spec L.length [L, L] 1 (by simp) (by simp) with
      ⟨_, _, hnz, hzero, hcorr⟩
    rw [hsh]
    refine ⟨?_, hnz, ?_⟩
    · rw [hzero]
      rfl
    · rw [hcorr, show lookup [L, L] 1 = L from rfl]
      exact (bubble_sort_eq_iterate L).symm
  · unfold merge_sortH
    rw [show lookup [L] 0 = L from rfl]
    match hm : merge_sort L with
    | none =>
      refine ⟨rfl, ?_⟩
      intro j hj
      exact absurd hj (by simp)
    | some v =>
      refine ⟨?_, ?_⟩
      · show lookup ([L] ++ [v]) 0 = L
        rfl
      · intro j hj
        have hj1 : j = 1 := (Option.some.inj hj).symm
        subst hj1
        exact ⟨one_ne_zero, by rw [show lookup ([L] ++ [v]) 1 = v from rfl]⟩

/-- Witness for C10 at the list `[2, 1]`. -/
theorem c10_witness :
    lookup (bubble_sortH [[2, 1]] 0).1 0 = [2, 1] ∧
    (merge_sortH [[2, 1]] 0).2 = some 1 ∧
    ((1 : Nat) ≠ 0 ∧
      some (lookup (merge_sortH [[2, 1]] 0).1 1) = merge_sort [2, 1]) := by
  have hm : (merge_sortH [[2, 1]] 0).2 = some 1 := by
    simp [merge_sortH, merge_sort, sortFuel, merge_cons_cons, merge_nil_left,
      merge_nil_right]
  exact ⟨(c10_no_mutation_no_alias [2, 1]).1.1, hm,
    (c10_no_mutation_no_alias [2, 1]).2.1.2 1 hm⟩

end SampleProgs
